import Mathlib

/-!
Verification development for the `rust-parallel` command execution engine.

We shallowly embed the Rust sources (`src/parser/regex.rs`, `src/commands.rs`,
`src/command_line_args.rs`, `src/main.rs`) as executable Lean definitions and
prove the specification claims about them.

The `regex` crate itself is external to the repository; we abstract it as a
`RegexCompiler` record providing, for each pattern string, its capture-group
name list (or `none` when the pattern fails to compile) and a capture function
from input strings to the optional list of per-group optional match values.
All code of the repository that consumes these library results is embedded
faithfully.
-/

set_option autoImplicit false

namespace RustParallel

/-! ## Models of Rust standard-library string primitives

Rust's `str::trim`, `str::starts_with`, `str::contains`, `str::replace` and
`str::split_whitespace` are modelled over `List Char`.  `Char.isWhitespace`
(ASCII whitespace) stands in for Unicode `White_Space`; every string occurring
in this development is ASCII.
-/

/-- Model of Rust `str::trim`: drop leading whitespace characters. -/
def trimLeftChars (l : List Char) : List Char :=
  l.dropWhile Char.isWhitespace

/-- Model of Rust `str::trim`: drop trailing whitespace characters. -/
def trimRightChars (l : List Char) : List Char :=
  (l.reverse.dropWhile Char.isWhitespace).reverse

/-- Model of Rust `str::trim` on `String`. -/
def rustTrim (s : String) : String :=
  ⟨trimRightChars (trimLeftChars s.data)⟩

/-- Model of Rust `str::starts_with(pat)` (string pattern). -/
def rustStartsWith (s pat : String) : Bool :=
  pat.data.isPrefixOf s.data

/-- Substring occurrence test over character lists (model of Rust
`str::contains` with a string pattern). -/
def containsSub (k : List Char) : List Char → Bool
  | [] => k.isEmpty
  | c :: rest => k.isPrefixOf (c :: rest) || containsSub k rest

/-- Model of Rust `str::contains(pat)`: does `pat` occur as a substring of
`s`? -/
def rustContains (s pat : String) : Bool :=
  containsSub pat.data s.data

/-- Worker for `replaceAll`.  The `Nat` argument counts characters still to be
copied over unchanged because they belong to the tail of a key occurrence that
was already replaced; recursion is structural on the character list. -/
def replaceAllGo (k v : List Char) : Nat → List Char → List Char
  | _ + 1, [] => []
  | n + 1, _ :: rest => replaceAllGo k v n rest
  | 0, [] => []
  | 0, c :: rest =>
    if k.isPrefixOf (c :: rest) then v ++ replaceAllGo k v (k.length - 1) rest
    else c :: replaceAllGo k v 0 rest

/-- Rust `str::replace` with an empty pattern inserts the replacement before
every character and once at the end. -/
def emptyPatReplace (v : List Char) : List Char → List Char
  | [] => v
  | c :: rest => v ++ c :: emptyPatReplace v rest

/-- Replace every (leftmost, non-overlapping) occurrence of `k` by `v`,
scanning left to right without rescanning replacement text: the model of Rust
`str::replace`. -/
def replaceAll (k v s : List Char) : List Char :=
  if k.isEmpty then emptyPatReplace v s else replaceAllGo k v 0 s

/-- Model of Rust `str::replace` on `String`: `rustReplace s k v` is
`s.replace(k, v)`. -/
def rustReplace (s k v : String) : String :=
  ⟨replaceAll k.data v.data s.data⟩

/-- Worker for `splitWhitespace`; `acc` holds the current (reversed) run of
non-whitespace characters. -/
def splitWsAux : List Char → List Char → List (List Char)
  | [], acc => if acc.isEmpty then [] else [acc.reverse]
  | c :: rest, acc =>
    if c.isWhitespace then
      if acc.isEmpty then splitWsAux rest [] else acc.reverse :: splitWsAux rest []
    else splitWsAux rest (c :: acc)

/-- Model of Rust `str::split_whitespace` (maximal non-whitespace runs, no
empty pieces). -/
def splitWhitespace (s : String) : List String :=
  (splitWsAux s.data []).map (fun l => ⟨l⟩)

/-! ## `src/command_line_args.rs` -/

/-- `pub const COMMANDS_FROM_ARGS_SEPARATOR: &str = ":::"`. -/
def COMMANDS_FROM_ARGS_SEPARATOR : String := ":::"

/-- `const DEFAULT_SHELL: &str = "/bin/bash"` (the unix case). -/
def DEFAULT_SHELL : String := "/bin/bash"

/-- The configuration record built by clap.  Fields irrelevant to the claims
(progress bar, discard-output, path cache) are omitted.  The two
`auto_interpolate` flags are declared exactly as they are consumed by
`src/parser/regex.rs` (the copy of `command_line_args.rs` in this tree
predates their declaration). -/
structure CommandLineArgs where
  input_file : List String := []
  jobs : Nat := 1
  null_separator : Bool := false
  regex : Option String := none
  shell : Bool := false
  timeout_seconds : Option Rat := none
  channel_capacity : Nat := 1
  shell_path : String := DEFAULT_SHELL
  command_and_initial_arguments : List String := []
  auto_interpolate_args : Bool := false
  auto_interpolate_named_args : Bool := false

/-- `CommandLineArgs::commands_from_args_mode`: whether
`command_and_initial_arguments` contains at least one `:::` separator. -/
def CommandLineArgs.commands_from_args_mode (args : CommandLineArgs) : Bool :=
  args.command_and_initial_arguments.any (fun s => s == COMMANDS_FROM_ARGS_SEPARATOR)

/-- `tokio::sync::Semaphore::MAX_PERMITS = usize::MAX >> 3` on a 64-bit
platform. -/
def SEMAPHORE_MAX_PERMITS : Nat := 2 ^ 61 - 1

/-- `CommandLineArgs::parse_semaphore_permits`.  The `str::parse::<usize>`
call is external; its result is modelled as `Option Nat` (with `none` for a
non-numeric string). -/
def parse_semaphore_permits (parsed : Option Nat) : Except String Nat :=
  match parsed with
  | none => Except.error "is not a number"
  | some value =>
    if 1 ≤ value ∧ value ≤ SEMAPHORE_MAX_PERMITS then Except.ok value
    else Except.error "value not in range"

/-- `CommandLineArgs::parse_timeout_seconds`.  The `str::parse::<f64>` call is
external; the parsed numeric value is modelled as `Option Rat`. -/
def parse_timeout_seconds (parsed : Option Rat) : Except String Rat :=
  match parsed with
  | none => Except.error "is not a number"
  | some value =>
    if value > 0 then Except.ok value
    else Except.error "value not greater than 0"

/-! ## `src/parser/regex.rs` -/

/-- `AutoCommandLineArgsRegex`: the generated regex string together with the
command-and-initial-arguments list after consuming capture-name tokens. -/
structure AutoCommandLineArgsRegex where
  generated_regex : String
  modified_command_and_initial_arguments : List String
deriving DecidableEq, Repr

/-- `AutoCommandLineArgsRegex::new_auto_interpolate_args`: one `(.*)` capture
per argument group, space-joined. -/
def new_auto_interpolate_args (args : CommandLineArgs) : AutoCommandLineArgsRegex :=
  let argument_group_count :=
    (args.command_and_initial_arguments.filter
      (fun s => s == COMMANDS_FROM_ARGS_SEPARATOR)).length
  let generated_regex :=
    (List.range argument_group_count).foldl
      (fun acc i => acc ++ (if i = 0 then "(.*)" else " (.*)")) ""
  { generated_regex := generated_regex
    modified_command_and_initial_arguments := args.command_and_initial_arguments }

/-- One step of the scanning loop in
`AutoCommandLineArgsRegex::new_auto_interpolate_named_args`.  The state is
`(prev_arg_was_separator, generated_regex, filtered_command_and_initial_arguments)`. -/
def namedArgsStep (st : Bool × String × List String) (arg : String) :
    Bool × String × List String :=
  let prev := st.1
  let gen := st.2.1
  let filtered := st.2.2
  if !prev && arg == COMMANDS_FROM_ARGS_SEPARATOR then
    (true, gen, filtered ++ [arg])
  else if prev && arg != COMMANDS_FROM_ARGS_SEPARATOR then
    (false,
      gen ++ (if gen.isEmpty then "" else " ") ++ "(?P<" ++ arg ++ ">.*)",
      filtered)
  else
    (prev, gen, filtered ++ [arg])

/-- `AutoCommandLineArgsRegex::new_auto_interpolate_named_args`. -/
def new_auto_interpolate_named_args (args : CommandLineArgs) : AutoCommandLineArgsRegex :=
  let st := args.command_and_initial_arguments.foldl namedArgsStep (false, "", [])
  { generated_regex := st.2.1
    modified_command_and_initial_arguments := st.2.2 }

/-- `AutoCommandLineArgsRegex::new`. -/
def AutoCommandLineArgsRegex.new (args : CommandLineArgs) :
    Option AutoCommandLineArgsRegex :=
  if args.auto_interpolate_args && args.commands_from_args_mode then
    some (new_auto_interpolate_args args)
  else if args.auto_interpolate_named_args && args.commands_from_args_mode then
    some (new_auto_interpolate_named_args args)
  else
    none

/-- Abstraction of the external `regex` crate.  `capture_names pat` is the
index-ordered capture-name list of the compiled pattern (entry 0, the whole
match, is unnamed), or `none` when compilation fails.  `captures pat input`
is the result of `Regex::captures`: `none` when the pattern does not match
`input`, otherwise the per-group optional matched substrings (group 0 always
participates). -/
structure RegexCompiler where
  capture_names : String → Option (List (Option String))
  captures : String → String → Option (List (Option String))

/-- `CommandLineRegex`: the compiled regex, modelled by its capture-name list
and its capture function. -/
structure CommandLineRegex where
  captureNames : List (Option String)
  capturesFn : String → Option (List (Option String))

/-- The `numbered_group_match_keys` vector built in `CommandLineRegex::new`:
for capture index `i` the literal key `format!("\x7b{}\x7d", i)`. -/
def numberedGroupMatchKeys (captureNames : List (Option String)) : List String :=
  captureNames.enum.map (fun p => "\x7b" ++ toString p.1 ++ "\x7d")

/-- The `named_group_to_match_key` vector built in `CommandLineRegex::new`:
for each named capture `name` the pair `(name, "\x7b" ++ name ++ "\x7d")`, in
capture-index order. -/
def namedGroupToMatchKey (captureNames : List (Option String)) : List (String × String) :=
  captureNames.enum.filterMap
    (fun p => p.2.map (fun name => (name, "\x7b" ++ name ++ "\x7d")))

/-- `CommandLineRegex::new`: compiling the pattern; a compile failure is an
`anyhow` error. -/
def CommandLineRegex.new (rc : RegexCompiler) (pattern : String) :
    Except String CommandLineRegex :=
  match rc.capture_names pattern with
  | none => Except.error "CommandLineRegex::new: error creating regex"
  | some names => Except.ok ⟨names, rc.captures pattern⟩

/-- `Captures::name`: the value of the named group, looked up through the
compiled name table. -/
def capturesName (captureNames : List (Option String))
    (caps : List (Option String)) (name : String) : Option String :=
  match captureNames.indexOf? (some name) with
  | none => none
  | some i => caps[i]?.bind id

/-- The `update_argument` closure in `CommandLineRegex::expand`. -/
def updateArgument (argument match_key match_value : String) : String :=
  if rustContains argument match_key then rustReplace argument match_key match_value
  else argument

/-- The numbered-capture-group loop of `CommandLineRegex::expand`. -/
def applyNumberedGroups (keys : List String) (caps : List (Option String))
    (argument : String) : String :=
  caps.enum.foldl
    (fun a p =>
      match p.2, keys[p.1]? with
      | some match_value, some match_key => updateArgument a match_key match_value
      | _, _ => a)
    argument

/-- The named-capture-group loop of `CommandLineRegex::expand`. -/
def applyNamedGroups (captureNames : List (Option String))
    (caps : List (Option String)) (argument : String) : String :=
  (namedGroupToMatchKey captureNames).foldl
    (fun a p =>
      match capturesName captureNames caps p.1 with
      | some match_value => updateArgument a p.2 match_value
      | none => a)
    argument

/-- `CommandLineRegex::expand`: on a match, substitute numbered groups first,
then named groups; on no match, return `none`. -/
def CommandLineRegex.expand (clr : CommandLineRegex) (argument input_data : String) :
    Option String :=
  match clr.capturesFn input_data with
  | none => none
  | some caps =>
    some (applyNamedGroups clr.captureNames caps
      (applyNumberedGroups (numberedGroupMatchKeys clr.captureNames) caps argument))

/-- `RegexProcessor`. -/
structure RegexProcessor where
  auto_regex : Option AutoCommandLineArgsRegex
  command_line_regex : Option CommandLineRegex

/-- `RegexProcessor::new`: pick the auto-generated regex when present,
otherwise the explicitly configured one, otherwise none; propagate compile
errors. -/
def RegexProcessor.new (rc : RegexCompiler) (args : CommandLineArgs) :
    Except String RegexProcessor :=
  let auto_regex := AutoCommandLineArgsRegex.new args
  match auto_regex with
  | some auto =>
    match CommandLineRegex.new rc auto.generated_regex with
    | Except.error e => Except.error e
    | Except.ok clr => Except.ok ⟨auto_regex, some clr⟩
  | none =>
    match args.regex with
    | some command_line_args_regex =>
      match CommandLineRegex.new rc command_line_args_regex with
      | Except.error e => Except.error e
      | Except.ok clr => Except.ok ⟨auto_regex, some clr⟩
    | none => Except.ok ⟨auto_regex, none⟩

/-- `RegexProcessor::regex_mode`. -/
def RegexProcessor.regex_mode (p : RegexProcessor) : Bool :=
  p.command_line_regex.isSome

/-- One iteration of the argument loop in
`RegexProcessor::apply_regex_to_arguments`; the state is
`(results, found_match)`. -/
def applyRegexStep (clr : CommandLineRegex) (input_data : String)
    (st : List String × Bool) (argument : String) : List String × Bool :=
  match clr.expand argument input_data with
  | some result => (st.1 ++ [result], true)
  | none => (st.1 ++ [argument], st.2)

/-- `RegexProcessor::apply_regex_to_arguments`. -/
def RegexProcessor.apply_regex_to_arguments (p : RegexProcessor)
    (arguments : List String) (input_data : String) : Option (List String) :=
  match p.command_line_regex with
  | none => none
  | some clr =>
    let st := arguments.foldl (applyRegexStep clr input_data) ([], false)
    if !st.2 then none else some st.1

/-! ## `src/commands.rs` -/

/-- The `Input` enum. -/
inductive Input where
  | stdin : Input
  | file (file_name : String) : Input
deriving DecidableEq, Repr

/-- The `Command` struct. -/
structure Command where
  input : Input
  line_number : Nat
  command : String
  shell_enabled : Bool
deriving DecidableEq, Repr

/-- The argv handed to `TokioCommand` by `Command::run`: in shell mode the
hard-coded `/bin/sh -c <command>`; otherwise the whitespace-split command with
the first token as the program.  `none` models the `panic!` branch taken when
the split is empty. -/
def Command.runArgv (c : Command) : Option (String × List String) :=
  if c.shell_enabled then
    some ("/bin/sh", ["-c", c.command])
  else
    match splitWhitespace c.command with
    | [] => none
    | program :: cmdArgs => some (program, cmdArgs)

/-- The per-line skip test in `CommandService::process_one_input`:
`trimmed_line.is_empty() || trimmed_line.starts_with("#")`. -/
def lineSkipped (line : String) : Bool :=
  (rustTrim line).isEmpty || rustStartsWith (rustTrim line) "#"

/-- One iteration of the read loop in `CommandService::process_one_input`;
the state is `(line_number, commands_spawned_so_far)`. -/
def processLineStep (input : Input) (shell_enabled : Bool)
    (st : Nat × List Command) (line : String) : Nat × List Command :=
  let line_number := st.1 + 1
  let trimmed_line := rustTrim line
  if trimmed_line.isEmpty || rustStartsWith trimmed_line "#" then
    (line_number, st.2)
  else
    (line_number,
      st.2 ++ [{ input := input, line_number := line_number,
                 command := trimmed_line, shell_enabled := shell_enabled }])

/-- `CommandService::process_one_input`, with the lines already read from the
input source, returning the list of `Command`s spawned (in spawn order). -/
def processOneInput (input : Input) (shell_enabled : Bool)
    (lines : List String) : List Command :=
  (lines.foldl (processLineStep input shell_enabled) (0, [])).2

/-- `CommandService::build_inputs`. -/
def buildInputs (args : CommandLineArgs) : List Input :=
  if args.input_file.isEmpty then [Input.stdin]
  else
    args.input_file.map (fun input_name =>
      if input_name == "-" then Input.stdin else Input.file input_name)

/-! ## Scheduler concurrency model (for the semaphore bound)

`CommandService` holds `Semaphore::new(jobs)`; `process_one_input` acquires
one owned permit before each `tokio::spawn`, the permit is moved into
`Command::run` and released when the task returns, and the child process is
spawned and reaped strictly inside `Command::run`.  We model this lifecycle
as a counting transition system: a task is `acquired` (permit held, child not
yet spawned), `childRunning` (permit held, child process alive) or
`childDone` (permit held, child reaped, output being written). -/

/-- Scheduler state: available semaphore permits and the number of tasks in
each phase of the `Command::run` lifecycle. -/
structure SchedState where
  available : Nat
  acquired : Nat
  childRunning : Nat
  childDone : Nat
deriving DecidableEq, Repr

/-- Initial scheduler state: `Semaphore::new(jobs)`, no tasks. -/
def SchedState.init (jobs : Nat) : SchedState :=
  ⟨jobs, 0, 0, 0⟩

/-- The scheduler transitions of `CommandService`:
`acquirePermit` models `command_semaphore.acquire_owned().await` followed by
`tokio::spawn`; `spawnChild` models the `TokioCommand::output` call starting
the child process; `childExit` models the child terminating and being reaped;
`finishTask` models `Command::run` returning, dropping the
`OwnedSemaphorePermit`. -/
inductive SchedStep : SchedState → SchedState → Prop where
  | acquirePermit (s : SchedState) (h : 1 ≤ s.available) :
      SchedStep s ⟨s.available - 1, s.acquired + 1, s.childRunning, s.childDone⟩
  | spawnChild (s : SchedState) (h : 1 ≤ s.acquired) :
      SchedStep s ⟨s.available, s.acquired - 1, s.childRunning + 1, s.childDone⟩
  | childExit (s : SchedState) (h : 1 ≤ s.childRunning) :
      SchedStep s ⟨s.available, s.acquired, s.childRunning - 1, s.childDone + 1⟩
  | finishTask (s : SchedState) (h : 1 ≤ s.childDone) :
      SchedStep s ⟨s.available + 1, s.acquired, s.childRunning, s.childDone - 1⟩

/-- Reachability from the initial state of a run with `jobs` permits. -/
inductive SchedReachable (jobs : Nat) : SchedState → Prop where
  | init : SchedReachable jobs (SchedState.init jobs)
  | step {s t : SchedState} : SchedReachable jobs s → SchedStep s t →
      SchedReachable jobs t

/-! ## `src/main.rs` -/

/-- `main`: a fatal error propagating out of `try_main` produces
`std::process::exit(1)`, otherwise the process exits 0. -/
def mainExitCode {α : Type} (tryMainResult : Except String α) : Nat :=
  match tryMainResult with
  | Except.ok _ => 0
  | Except.error _ => 1

/-! ## Specification-side definitions

These definitions transcribe the specification's words (not the source) and
are compared with the source-derived definitions above. -/

/-- Worker for `multiReplaceS`: a single left-to-right scan in which every key
occurrence is replaced and replacement text is never rescanned (the `Nat`
argument counts characters of an already-replaced key occurrence still to be
skipped). -/
def multiReplaceGo (table : List (List Char × List Char)) :
    Nat → List Char → List Char
  | _ + 1, [] => []
  | n + 1, _ :: rest => multiReplaceGo table n rest
  | 0, [] => []
  | 0, c :: rest =>
    match table.find? (fun p => p.1.isPrefixOf (c :: rest)) with
    | some p => p.2 ++ multiReplaceGo table (p.1.length - 1) rest
    | none => c :: multiReplaceGo table 0 rest

/-- Simultaneous literal replacement of every key of `table`, left to right,
never rescanning replacement text: the spec's description of substitution
("a replacement's own text is *not* rescanned"). -/
def multiReplaceS (table : List (String × String)) (s : String) : String :=
  ⟨multiReplaceGo (table.map (fun p => (p.1.data, p.2.data))) 0 s.data⟩

/-- The substitution-key table exactly as the specification words it: for
each numbered capture group `i` with match `v_i` the key `\x7bi\x7d`, group 0
additionally under the key `\x7b\x7d`, and for each named group `name` the
key `\x7bname\x7d`; numbered keys first, then named keys. -/
def specC1Table (captureNames : List (Option String))
    (caps : List (Option String)) : List (String × String) :=
  let zeroKey : List (String × String) :=
    match caps[0]?.bind id with
    | some v => [("\x7b\x7d", v)]
    | none => []
  let numbered : List (String × String) :=
    caps.enum.filterMap
      (fun p => p.2.map (fun v => ("\x7b" ++ toString p.1 ++ "\x7d", v)))
  let named : List (String × String) :=
    captureNames.enum.filterMap
      (fun p => p.2.bind (fun name =>
        (capturesName captureNames caps name).map
          (fun v => ("\x7b" ++ name ++ "\x7d", v))))
  numbered ++ zeroKey ++ named

/-- Claim C1's description of `expand`: on a match, apply the key table as a
single never-rescanning replacement pass. -/
def specExpandC1 (clr : CommandLineRegex) (argument input_data : String) :
    Option String :=
  match clr.capturesFn input_data with
  | none => none
  | some caps => some (multiReplaceS (specC1Table clr.captureNames caps) argument)

/-- The key/value table of the amended claim C1: for each numbered group `i`
that participates in the match, the key `\x7bi\x7d` (there is no bare
`\x7b\x7d` key), then for each named group `name` the key `\x7bname\x7d`,
each applied as a separate sequential replacement pass. -/
def amendedC1Table (captureNames : List (Option String))
    (caps : List (Option String)) : List (String × String) :=
  (caps.enum.filterMap
    (fun p => p.2.map (fun v => ("\x7b" ++ toString p.1 ++ "\x7d", v))))
  ++ (captureNames.enum.filterMap
    (fun p => p.2.bind (fun name =>
      (capturesName captureNames caps name).map
        (fun v => ("\x7b" ++ name ++ "\x7d", v)))))

/-- Sequential replacement: one full `str::replace` pass per table entry, in
table order (later passes scan the text produced by earlier ones). -/
def seqReplace (table : List (String × String)) (s : String) : String :=
  table.foldl (fun a p => rustReplace a p.1 p.2) s

/-- Claim C2's description of line filtering: skip a line when its trimmed
form is empty *and* the no-run-if-empty option is set, or when its trimmed
form begins with `#`. -/
def specSkipC2 (noRunIfEmpty : Bool) (line : String) : Bool :=
  ((rustTrim line).isEmpty && noRunIfEmpty) || rustStartsWith (rustTrim line) "#"

/-- The filter/map characterization of `processOneInput` used by the amended
claim C2: line numbers count every line read (including skipped ones), a line
is kept exactly when its trimmed form is neither empty nor a `#` comment, and
the kept line's trimmed form becomes the command string. -/
def specProcessedCommands (input : Input) (shell_enabled : Bool)
    (lines : List String) : List Command :=
  lines.enum.filterMap (fun p =>
    if lineSkipped p.2 then none
    else some { input := input, line_number := p.1 + 1,
                command := rustTrim p.2, shell_enabled := shell_enabled })

/-- Claim C5's description of template selection: auto-numbered, else
auto-named (each only in argument-group mode), else the explicit regex
string, else none. -/
def specChosenPattern (args : CommandLineArgs) : Option String :=
  if args.auto_interpolate_args && args.commands_from_args_mode then
    some (new_auto_interpolate_args args).generated_regex
  else if args.auto_interpolate_named_args && args.commands_from_args_mode then
    some (new_auto_interpolate_named_args args).generated_regex
  else
    args.regex

/-- Claim C6, capture names: the tokens that immediately follow a `:::`
separator (and are not themselves `:::`), in order; `pre` is the previous
token of the original list. -/
def consumedNamesAfter (pre : String) : List String → List String
  | [] => []
  | b :: rest =>
    (if pre == COMMANDS_FROM_ARGS_SEPARATOR && b != COMMANDS_FROM_ARGS_SEPARATOR
     then [b] else []) ++ consumedNamesAfter b rest

/-- Claim C6: the capture names consumed from a command-and-initial-arguments
list (the first token never immediately follows a separator). -/
def specConsumedNames : List String → List String
  | [] => []
  | a :: rest => consumedNamesAfter a rest

/-- Claim C6, kept tokens: the original list with the consumed capture names
removed; `pre` is the previous token of the original list. -/
def keptTokensAfter (pre : String) : List String → List String
  | [] => []
  | b :: rest =>
    (if pre == COMMANDS_FROM_ARGS_SEPARATOR && b != COMMANDS_FROM_ARGS_SEPARATOR
     then [] else [b]) ++ keptTokensAfter b rest

/-- Claim C6: the command template after removing consumed capture names. -/
def specKeptTokens : List String → List String
  | [] => []
  | a :: rest => a :: keptTokensAfter a rest

/-- The regex fragment synthesized for one capture name. -/
def namedPiece (n : String) : String :=
  "(?P<" ++ n ++ ">.*)"

/-- Plain concatenation of a list of strings. -/
def joinAll : List String → String
  | [] => ""
  | x :: xs => x ++ joinAll xs

/-- Claim C6: the synthesized named-group regex, the space-joined
concatenation `(?P<name1>.*) (?P<name2>.*) ...` in the order the names
appear. -/
def specNamedRegex : List String → String
  | [] => ""
  | n :: rest => namedPiece n ++ joinAll (rest.map (fun m => " " ++ namedPiece m))

/-- Offset variant of `specProcessedCommands`, recursing over the lines with
the count of lines already read. -/
def specProcessedFrom (input : Input) (shell_enabled : Bool) :
    Nat → List String → List Command
  | _, [] => []
  | n, line :: rest =>
    (if lineSkipped line then []
     else [{ input := input, line_number := n + 1,
             command := rustTrim line, shell_enabled := shell_enabled }])
    ++ specProcessedFrom input shell_enabled (n + 1) rest

/-- Folding the regex-building step of
`new_auto_interpolate_named_args` over a list of capture names, starting from
an already-accumulated string. -/
def genAppend (gen : String) (names : List String) : String :=
  names.foldl
    (fun g n => g ++ (if g.isEmpty then "" else " ") ++ "(?P<" ++ n ++ ">.*)") gen

/-! ## Foreign forms (claim C7)

Claim C7 is about dollar-sign sequences and curly-brace forms that are not
substitution keys surviving substitution verbatim.  The predicates below
describe (i) the shape every key built by `CommandLineRegex::new` has — an
opening brace, an interior free of braces and dollar signs (the `regex`
crate only admits `[_0-9a-zA-Z.\x5b\x5d]` in capture names, and numbered
keys have decimal interiors), and a closing brace — and (ii) the foreign
chunks of the claim: `$ident`, `$\x7bident\x7d` and `\x7bident\x7d` forms
whose brace body is not a key of the template. -/

/-- The opening-brace character. -/
def lbrace : Char := Char.ofNat 123

/-- The closing-brace character. -/
def rbrace : Char := Char.ofNat 125

/-- No brace characters occur in `u`. -/
def braceFree (u : List Char) : Bool :=
  u.all (fun c => c != lbrace && c != rbrace)

/-- No brace and no dollar characters occur in `u` (true of every capture
name the `regex` crate admits and of every decimal group index). -/
def keyInteriorOk (u : List Char) : Bool :=
  u.all (fun c => c != lbrace && c != rbrace && c != '$')

/-- The shape of every substitution key: `\x7b` ++ interior ++ `\x7d` with a
brace- and dollar-free interior. -/
def isKeyShape (k : List Char) : Bool :=
  match k with
  | [] => false
  | c :: rest =>
    c == lbrace && rest.getLast? == some rbrace && keyInteriorOk rest.dropLast

/-- A curly-brace form `\x7bident\x7d` (brace-free interior) that is not
among `keys`. -/
def isBraceChunk (keys : List (List Char)) (f : List Char) : Bool :=
  match f with
  | [] => false
  | c :: rest =>
    c == lbrace && rest.getLast? == some rbrace && braceFree rest.dropLast
      && !(keys.contains f)

/-- The foreign chunks of claim C7: a dollar sign followed by brace-free text
(`$BAR`), a dollar sign followed by a non-key brace form (`$\x7bFOO\x7d`), or
a non-key brace form (`\x7bunknown\x7d`). -/
def isForeignChunk (keys : List (List Char)) (f : List Char) : Bool :=
  match f with
  | [] => false
  | c :: rest =>
    if c == '$' then braceFree rest || isBraceChunk keys rest
    else isBraceChunk keys f

/-- All substitution keys of a template, numbered then named. -/
def expandKeyStrings (captureNames : List (Option String)) : List String :=
  numberedGroupMatchKeys captureNames
    ++ (namedGroupToMatchKey captureNames).map Prod.snd

/-! ## Concrete fixtures used by counterexamples and witnesses -/

/-- A compiled template of the shape `(.*);(.*)` (three numbered groups, no
names), with its `regex`-crate behaviour pinned on the one input datum the
counterexample uses. -/
def clrC1 : CommandLineRegex where
  captureNames := [none, none, none]
  capturesFn := fun s =>
    if s == "\x7b2\x7d;abc" then
      some [some "\x7b2\x7d;abc", some "\x7b2\x7d", some "abc"]
    else none

/-- A compiled template of the shape `(?P<arg1>.*),(?P<arg2>.*)`, with its
behaviour pinned on the datum `hello,world` (a match) and everything else a
non-match. -/
def clrNamed : CommandLineRegex where
  captureNames := [none, some "arg1", some "arg2"]
  capturesFn := fun s =>
    if s == "hello,world" then
      some [some "hello,world", some "hello", some "world"]
    else none

/-- A `RegexProcessor` holding `clrNamed`. -/
def procNamed : RegexProcessor where
  auto_regex := none
  command_line_regex := some clrNamed

/-- A regex compiler on which the pattern `BADPAT` fails to compile and every
other pattern compiles to two unnamed groups that never match. -/
def rcBad : RegexCompiler where
  capture_names := fun pat => if pat == "BADPAT" then none else some [none, none]
  captures := fun _ _ => none

/-- Argument-group-mode configuration with `--auto-interpolate-args` set and
an explicit regex also configured. -/
def argsAutoC5 : CommandLineArgs :=
  { command_and_initial_arguments := ["echo", ":::", "A", "B"]
    auto_interpolate_args := true
    regex := some "IGNORED" }

/-- Configuration whose explicit regex is the invalid pattern `BADPAT`. -/
def argsBadRegex : CommandLineArgs :=
  { regex := some "BADPAT" }

/-- The processor `RegexProcessor::new` builds for `argsAutoC5` under
`rcBad`: the auto-numbered template `(.*)` is compiled and the explicit regex
is ignored. -/
def pC5fix : RegexProcessor where
  auto_regex := AutoCommandLineArgsRegex.new argsAutoC5
  command_line_regex := some ⟨[none, none], rcBad.captures "(.*)"⟩

/-! ## Helper lemmas: string primitives -/

theorem containsSub_nil_pat (s : List Char) : containsSub [] s = true := by
  cases s with
  | nil => rfl
  | cons c rest => simp [containsSub, List.isPrefixOf]

theorem pat_ne_nil_of_not_containsSub {k s : List Char}
    (h : containsSub k s = false) : k ≠ [] := by
  intro hk
  subst hk
  rw [containsSub_nil_pat] at h
  exact Bool.noConfusion h

theorem replaceAllGo_zero_of_not_containsSub {k s : List Char} (v : List Char)
    (h : containsSub k s = false) : replaceAllGo k v 0 s = s := by
  induction s with
  | nil => rfl
  | cons c rest ih =>
    rw [containsSub, Bool.or_eq_false_iff] at h
    rw [replaceAllGo, if_neg (by simp [h.1]), ih h.2]

theorem replaceAll_of_not_containsSub {k s : List Char} (v : List Char)
    (h : containsSub k s = false) : replaceAll k v s = s := by
  have hk : k ≠ [] := pat_ne_nil_of_not_containsSub h
  rw [replaceAll, if_neg (by simpa using hk)]
  exact replaceAllGo_zero_of_not_containsSub v h

theorem rustReplace_of_not_contains {s k : String} (v : String)
    (h : rustContains s k = false) : rustReplace s k v = s := by
  unfold rustReplace
  rw [replaceAll_of_not_containsSub _ h]

theorem updateArgument_eq_rustReplace (a k v : String) :
    updateArgument a k v = rustReplace a k v := by
  unfold updateArgument
  by_cases h : rustContains a k = true
  · rw [if_pos h]
  · have h' : rustContains a k = false := by
      cases hb : rustContains a k
      · rfl
      · exact absurd hb h
    rw [if_neg h, rustReplace_of_not_contains v h']

/-! ## Helper lemmas: folds over key tables (claim C1) -/

theorem foldl_match_filterMap {α β γ : Type} (g : α → Option β) (h : γ → β → γ)
    (l : List α) (a : γ) :
    l.foldl (fun acc x => match g x with | some y => h acc y | none => acc) a
      = (l.filterMap g).foldl h a := by
  induction l generalizing a with
  | nil => rfl
  | cons x xs ih => cases hx : g x <;> simp [List.filterMap_cons, hx, ih]

/-- The numbered-group pass of `expand` is a sequence of plain `str::replace`
passes over the numbered part of the key table. -/
theorem applyNumberedGroups_eq_seq (keys : List String)
    (caps : List (Option String)) (argument : String) :
    applyNumberedGroups keys caps argument
      = seqReplace
          (caps.enum.filterMap (fun p =>
            match p.2, keys[p.1]? with
            | some v, some k => some (k, v)
            | _, _ => none))
          argument := by
  unfold applyNumberedGroups seqReplace
  rw [← foldl_match_filterMap]
  congr 1
  funext a p
  cases p.2 <;> cases keys[p.1]? <;> simp [updateArgument_eq_rustReplace]

/-- The named-group pass of `expand` is a sequence of plain `str::replace`
passes over the named part of the key table. -/
theorem applyNamedGroups_eq_seq (names caps : List (Option String))
    (argument : String) :
    applyNamedGroups names caps argument
      = seqReplace
          ((namedGroupToMatchKey names).filterMap (fun p =>
            (capturesName names caps p.1).map (fun v => (p.2, v))))
          argument := by
  unfold applyNamedGroups seqReplace
  rw [← foldl_match_filterMap]
  congr 1
  funext a p
  cases capturesName names caps p.1 <;> simp [updateArgument_eq_rustReplace]

theorem numberedGroupMatchKeys_getElem? (names : List (Option String)) (i : Nat)
    (hi : i < names.length) :
    (numberedGroupMatchKeys names)[i]? = some ("\x7b" ++ toString i ++ "\x7d") := by
  unfold numberedGroupMatchKeys
  rw [List.getElem?_map, List.getElem?_enum, List.getElem?_eq_getElem hi]
  rfl

/-- The numbered key table of `expand` coincides with the numbered part of
the amended claim's table when the capture list has one entry per group. -/
theorem numberedTable_eq (names caps : List (Option String))
    (hlen : caps.length = names.length) :
    caps.enum.filterMap (fun p =>
        match p.2, (numberedGroupMatchKeys names)[p.1]? with
        | some v, some k => some (k, v)
        | _, _ => none)
      = caps.enum.filterMap (fun p =>
          p.2.map (fun v => ("\x7b" ++ toString p.1 ++ "\x7d", v))) := by
  apply List.filterMap_congr
  intro x hx
  have h1 : caps[x.1]? = some x.2 := List.mem_enum_iff_getElem?.mp hx
  have h2 : x.1 < caps.length := by
    cases hlt : caps[x.1]? with
    | none => rw [hlt] at h1; exact Option.noConfusion h1
    | some a =>
      by_contra hge
      rw [List.getElem?_eq_none (Nat.le_of_not_lt hge)] at hlt
      exact Option.noConfusion hlt
  rw [numberedGroupMatchKeys_getElem? names x.1 (hlen ▸ h2)]
  cases x.2 <;> simp

/-- The named key table of `expand` coincides with the named part of the
amended claim's table. -/
theorem namedTable_eq (names caps : List (Option String)) :
    (namedGroupToMatchKey names).filterMap (fun p =>
        (capturesName names caps p.1).map (fun v => (p.2, v)))
      = names.enum.filterMap (fun p =>
          p.2.bind (fun name =>
            (capturesName names caps name).map
              (fun v => ("\x7b" ++ name ++ "\x7d", v)))) := by
  unfold namedGroupToMatchKey
  rw [List.filterMap_filterMap]
  apply List.filterMap_congr
  intro x _
  cases x.2 with
  | none => rfl
  | some name => cases capturesName names caps name <;> simp

/-! ## Helper lemmas: the input-processing loop (claims C2 and C10) -/

theorem foldl_processLineStep (input : Input) (se : Bool) (lines : List String)
    (n : Nat) (acc : List Command) :
    lines.foldl (processLineStep input se) (n, acc)
      = (n + lines.length, acc ++ specProcessedFrom input se n lines) := by
  induction lines generalizing n acc with
  | nil => simp [specProcessedFrom]
  | cons line rest ih =>
    simp only [List.foldl_cons, processLineStep, specProcessedFrom, lineSkipped]
    by_cases h : ((rustTrim line).isEmpty || rustStartsWith (rustTrim line) "#") = true
    · rw [if_pos h, if_pos h, ih]
      simp [Nat.add_comm, Nat.add_assoc, Nat.add_left_comm]
    · rw [if_neg h, if_neg h, ih]
      simp [Nat.add_comm, Nat.add_assoc, Nat.add_left_comm]

theorem enumFrom_filterMap_eq_specProcessedFrom (input : Input) (se : Bool)
    (lines : List String) (n : Nat) :
    (List.enumFrom n lines).filterMap (fun p =>
        if lineSkipped p.2 then none
        else some { input := input, line_number := p.1 + 1,
                    command := rustTrim p.2, shell_enabled := se })
      = specProcessedFrom input se n lines := by
  induction lines generalizing n with
  | nil => rfl
  | cons line rest ih =>
    by_cases h : lineSkipped line = true <;>
      simp [List.enumFrom_cons, List.filterMap_cons, h, specProcessedFrom, ih]

/-- `process_one_input` produces exactly the commands of the filter/map
characterization: line numbers count every line read, a line is kept iff its
trimmed form is neither empty nor a `#` comment, and the command string is
the trimmed line. -/
theorem processOneInput_eq_spec (input : Input) (se : Bool) (lines : List String) :
    processOneInput input se lines = specProcessedCommands input se lines := by
  unfold processOneInput specProcessedCommands
  rw [foldl_processLineStep]
  show [] ++ specProcessedFrom input se 0 lines = _
  rw [List.nil_append, List.enum, enumFrom_filterMap_eq_specProcessedFrom]

/-! ## Helper lemmas: trimmed lines and whitespace splitting (claim C10) -/

theorem trimRightChars_isPrefix (m : List Char) : trimRightChars m <+: m := by
  have h1 : (trimRightChars m).reverse <:+ m.reverse := by
    unfold trimRightChars
    rw [List.reverse_reverse]
    exact List.dropWhile_suffix _
  exact List.reverse_suffix.mp (by simpa using h1)

theorem trimLeftChars_head_not_ws {d : List Char} {c : Char} {rest : List Char}
    (h : trimLeftChars d = c :: rest) : c.isWhitespace = false := by
  induction d generalizing c rest with
  | nil => exact absurd h (by simp [trimLeftChars])
  | cons a d' ih =>
    unfold trimLeftChars at h
    rw [List.dropWhile_cons] at h
    by_cases ha : a.isWhitespace = true
    · rw [if_pos ha] at h
      exact ih h
    · rw [if_neg ha] at h
      injection h with h1 _
      subst h1
      simpa using ha

theorem rustTrim_head_not_ws {line : String} {c : Char} {rest : List Char}
    (h : (rustTrim line).data = c :: rest) : c.isWhitespace = false := by
  have h1 : trimRightChars (trimLeftChars line.data) = c :: rest := h
  obtain ⟨u, hu⟩ := trimRightChars_isPrefix (trimLeftChars line.data)
  rw [h1] at hu
  exact trimLeftChars_head_not_ws hu.symm

theorem splitWsAux_ne_nil {l acc : List Char} (h : acc ≠ []) :
    splitWsAux l acc ≠ [] := by
  induction l generalizing acc with
  | nil =>
    unfold splitWsAux
    rw [if_neg (by simpa using h)]
    exact List.cons_ne_nil _ _
  | cons c rest ih =>
    unfold splitWsAux
    by_cases hc : c.isWhitespace = true
    · rw [if_pos hc, if_neg (by simpa using h)]
      exact List.cons_ne_nil _ _
    · rw [if_neg hc]
      exact ih (List.cons_ne_nil c acc)

theorem splitWhitespace_ne_nil_of_trimmed {s : String}
    (hdata : s.data ≠ []) (hhead : ∀ c rest, s.data = c :: rest → c.isWhitespace = false) :
    splitWhitespace s ≠ [] := by
  unfold splitWhitespace
  intro hmap
  have hs : splitWsAux s.data [] = [] := List.map_eq_nil_iff.mp hmap
  cases hd : s.data with
  | nil => exact hdata hd
  | cons c rest =>
    rw [hd] at hs
    unfold splitWsAux at hs
    rw [if_neg (by rw [hhead c rest hd]; exact Bool.noConfusion)] at hs
    exact splitWsAux_ne_nil (List.cons_ne_nil c []) hs

theorem string_data_ne_nil_of_not_isEmpty {s : String} (h : s.isEmpty = false) :
    s.data ≠ [] := by
  intro hd
  have : s = "" := by
    cases s with
    | mk data => cases hd; rfl
  rw [this] at h
  exact Bool.noConfusion h

theorem splitWhitespace_rustTrim_ne_nil {line : String}
    (h : (rustTrim line).isEmpty = false) : splitWhitespace (rustTrim line) ≠ [] := by
  apply splitWhitespace_ne_nil_of_trimmed (string_data_ne_nil_of_not_isEmpty h)
  intro c rest hcr
  exact rustTrim_head_not_ws hcr

/-! ## Claim C1 -/

/-- C1 (counterexample): with the template `(.*);(.*)` and input datum
`{2};abc`, the claim as stated fails on the argv element `{} {1}`: the code
leaves the key `{}` untouched (group 0 has no bare-brace key in
`CommandLineRegex::new`), and the text `{2}` introduced by the `{1}`
replacement *is* rescanned and rewritten by the later `{2}` replacement,
yielding `{} abc` instead of the spec's `{2};abc {2}`. -/
theorem C1_counterexample :
    clrC1.expand "\x7b\x7d \x7b1\x7d" "\x7b2\x7d;abc" = some "\x7b\x7d abc"
    ∧ specExpandC1 clrC1 "\x7b\x7d \x7b1\x7d" "\x7b2\x7d;abc"
        = some "\x7b2\x7d;abc \x7b2\x7d"
    ∧ clrC1.expand "\x7b\x7d \x7b1\x7d" "\x7b2\x7d;abc"
        ≠ specExpandC1 clrC1 "\x7b\x7d \x7b1\x7d" "\x7b2\x7d;abc" := by
  refine ⟨by decide, by decide, by decide⟩

/-- C1 (amended): for every argv element and every input datum the active
template matches, substitution replaces every literal occurrence of each
known key — `{i}` for each numbered group `i` that participates in the match
and `{name}` for each named group; there is no bare `{}` key — with the
corresponding capture value, as one full left-to-right `str::replace` pass
per key, numbered groups in index order first and named groups second; the
text introduced by one key's pass is scanned again by the later keys'
passes. -/
theorem C1_expand_sequential_passes (clr : CommandLineRegex)
    (argument input_data : String) (caps : List (Option String))
    (hcap : clr.capturesFn input_data = some caps)
    (hlen : caps.length = clr.captureNames.length) :
    clr.expand argument input_data
      = some (seqReplace (amendedC1Table clr.captureNames caps) argument) := by
  unfold CommandLineRegex.expand
  rw [hcap]
  show some (applyNamedGroups clr.captureNames caps
      (applyNumberedGroups (numberedGroupMatchKeys clr.captureNames) caps argument))
    = _
  congr 1
  rw [applyNumberedGroups_eq_seq, applyNamedGroups_eq_seq,
    numberedTable_eq _ _ hlen, namedTable_eq]
  unfold amendedC1Table seqReplace
  rw [List.foldl_append]

/-- C1 (witness): the amended theorem applied to the concrete template
`clrC1`, element `x={1}` and datum `{2};abc`. -/
theorem C1_witness :
    clrC1.capturesFn "\x7b2\x7d;abc"
        = some [some "\x7b2\x7d;abc", some "\x7b2\x7d", some "abc"]
    ∧ clrC1.expand "x=\x7b1\x7d" "\x7b2\x7d;abc"
        = some (seqReplace
            (amendedC1Table clrC1.captureNames
              [some "\x7b2\x7d;abc", some "\x7b2\x7d", some "abc"])
            "x=\x7b1\x7d") :=
  ⟨by decide,
    C1_expand_sequential_passes clrC1 "x=\x7b1\x7d" "\x7b2\x7d;abc"
      [some "\x7b2\x7d;abc", some "\x7b2\x7d", some "abc"] (by decide) (by decide)⟩

/-! ## Claim C2 -/

/-- C2 (counterexample): the line `"\n"` trims to the empty string; with the
no-run-if-empty option unset the claim says it is still processed, but
`process_one_input` unconditionally skips it and spawns no command. -/
theorem C2_counterexample :
    lineSkipped "\n" = true
    ∧ specSkipC2 false "\n" = false
    ∧ processOneInput Input.stdin false ["\n"] = [] := by
  refine ⟨by decide, by decide, by decide⟩

/-- C2 (amended): every line read from a file or stdin source is trimmed of
surrounding whitespace; a line whose trimmed form is empty is *always*
skipped (this version of the code has no no-run-if-empty option), and a line
whose trimmed form begins with `#` is always skipped; every other line
yields exactly one command whose string is the trimmed line, with line
numbers counting every line read. -/
theorem C2_line_filtering (input : Input) (se : Bool) (lines : List String) :
    processOneInput input se lines = specProcessedCommands input se lines :=
  processOneInput_eq_spec input se lines

/-! ## Claim C10 -/

/-- C10: every `Command` constructed by `process_one_input` has a command
string that is non-empty after trimming, so its whitespace split is
non-empty and the `panic!` branch of `Command::run` (modelled by
`Command.runArgv` returning `none`) is unreachable. -/
theorem C10_split_nonempty (input : Input) (se : Bool) (lines : List String)
    (c : Command) (hc : c ∈ processOneInput input se lines) :
    splitWhitespace c.command ≠ [] ∧ c.runArgv.isSome = true := by
  rw [processOneInput_eq_spec] at hc
  unfold specProcessedCommands at hc
  obtain ⟨p, _, heq⟩ := List.mem_filterMap.mp hc
  by_cases hskip : lineSkipped p.2 = true
  · rw [if_pos hskip] at heq
    exact Option.noConfusion heq
  · rw [if_neg hskip] at heq
    have hempty : (rustTrim p.2).isEmpty = false := by
      unfold lineSkipped at hskip
      rcases Bool.or_eq_false_iff.mp (Bool.eq_false_iff.mpr hskip) with ⟨h1, _⟩
      exact h1
    have hcmd : c.command = rustTrim p.2 := by
      cases heq
      rfl
    have hsplit : splitWhitespace c.command ≠ [] := by
      rw [hcmd]
      exact splitWhitespace_rustTrim_ne_nil hempty
    refine ⟨hsplit, ?_⟩
    unfold Command.runArgv
    by_cases hsh : c.shell_enabled = true
    · rw [if_pos hsh]
      rfl
    · rw [if_neg hsh]
      cases hs : splitWhitespace c.command with
      | nil => exact absurd hs hsplit
      | cons prog cargs => rfl

/-- C10 (witness): the theorem applied to the single input line `echo hi`. -/
theorem C10_witness :
    splitWhitespace (Command.command ⟨Input.stdin, 1, "echo hi", false⟩) ≠ []
    ∧ (Command.runArgv ⟨Input.stdin, 1, "echo hi", false⟩).isSome = true :=
  C10_split_nonempty Input.stdin false ["echo hi"]
    ⟨Input.stdin, 1, "echo hi", false⟩ (by decide)

/-! ## Claim C3 -/

/-- C3: evaluation of `Command::run`'s argv construction at the failing
input.  In shell mode the code hands `["-c", command]` to the hard-coded
program `/bin/sh`, ignoring the configured shell path whose default is
`/bin/bash` (`DEFAULT_SHELL`), which the claim, the `--shell-path` option's
own documentation and the dry-run integration test all require; the
non-shell whitespace-split half of the claim holds. -/
theorem C3_shell_argv_evaluation :
    Command.runArgv ⟨Input.stdin, 1, "echo A", true⟩
        = some ("/bin/sh", ["-c", "echo A"])
    ∧ ("/bin/sh" : String) ≠ DEFAULT_SHELL
    ∧ Command.runArgv ⟨Input.stdin, 1, "echo A", false⟩
        = some ("echo", ["A"]) := by
  refine ⟨by decide, by decide, by decide⟩

/-! ## Claim C4 -/

/-- C4: on an input datum the compiled regex does not match, `expand` returns
`none` for every argv element (the element is passed through unchanged by
`apply_regex_to_arguments`, which records no match) and
`apply_regex_to_arguments` itself returns `none`. -/
theorem C4_nonmatching_identity (p : RegexProcessor) (clr : CommandLineRegex)
    (arguments : List String) (input_data : String)
    (hp : p.command_line_regex = some clr)
    (hm : clr.capturesFn input_data = none) :
    (∀ a ∈ arguments, clr.expand a input_data = none)
    ∧ p.apply_regex_to_arguments arguments input_data = none := by
  have hexp : ∀ a, clr.expand a input_data = none := by
    intro a
    unfold CommandLineRegex.expand
    rw [hm]
  refine ⟨fun a _ => hexp a, ?_⟩
  unfold RegexProcessor.apply_regex_to_arguments
  rw [hp]
  have hfold : ∀ (l : List String) (st : List String × Bool),
      (l.foldl (applyRegexStep clr input_data) st).2 = st.2 := by
    intro l
    induction l with
    | nil => intro st; rfl
    | cons a rest ih =>
      intro st
      rw [List.foldl_cons,
        show applyRegexStep clr input_data st a = (st.1 ++ [a], st.2) by
          unfold applyRegexStep
          rw [hexp a]]
      exact ih _
  show (if !(arguments.foldl (applyRegexStep clr input_data) ([], false)).2 then none
        else some (arguments.foldl (applyRegexStep clr input_data) ([], false)).1)
      = none
  rw [hfold arguments ([], false)]
  rfl

/-- C4 (witness): the theorem applied to the processor holding the template
`(?P<arg1>.*),(?P<arg2>.*)` and the non-matching datum `hello world`. -/
theorem C4_witness :
    procNamed.command_line_regex = some clrNamed
    ∧ clrNamed.capturesFn "hello world" = none
    ∧ clrNamed.expand "\x7barg1\x7d" "hello world" = none
    ∧ procNamed.apply_regex_to_arguments ["\x7barg1\x7d"] "hello world" = none := by
  have h := C4_nonmatching_identity procNamed clrNamed ["\x7barg1\x7d"]
    "hello world" rfl (by decide)
  exact ⟨rfl, by decide, h.1 _ (by decide), h.2⟩

/-! ## Claim C5 -/

theorem regexProcessorNew_eq_spec (rc : RegexCompiler) (args : CommandLineArgs) :
    RegexProcessor.new rc args
      = match specChosenPattern args with
        | some pat =>
          (CommandLineRegex.new rc pat).map
            (fun clr => ⟨AutoCommandLineArgsRegex.new args, some clr⟩)
        | none => Except.ok ⟨none, none⟩ := by
  unfold RegexProcessor.new specChosenPattern AutoCommandLineArgsRegex.new
  by_cases h1 : (args.auto_interpolate_args && args.commands_from_args_mode) = true
  · simp only [h1, if_true]
    cases hcn : CommandLineRegex.new rc (new_auto_interpolate_args args).generated_regex <;>
      simp [Except.map]
  · simp only [h1, if_false, Bool.false_eq_true]
    by_cases h2 : (args.auto_interpolate_named_args && args.commands_from_args_mode) = true
    · simp only [h2, if_true]
      cases hcn :
          CommandLineRegex.new rc (new_auto_interpolate_named_args args).generated_regex <;>
        simp [Except.map]
    · simp only [h2, if_false, Bool.false_eq_true]
      cases hr : args.regex with
      | none => rfl
      | some r =>
        dsimp only [Except.map]
        cases hcn : CommandLineRegex.new rc r <;> rfl

/-- C5: exactly one template is selected, in the priority order auto-numbered
(flag set and argument-group mode), then auto-named (flag set and
argument-group mode), then the explicitly configured regex string, then
none — in which case `regex_mode()` is false; when an auto template is
active, the explicitly configured regex string is ignored. -/
theorem C5_template_selection (rc : RegexCompiler) (args : CommandLineArgs) :
    (RegexProcessor.new rc args
      = match specChosenPattern args with
        | some pat =>
          (CommandLineRegex.new rc pat).map
            (fun clr => ⟨AutoCommandLineArgsRegex.new args, some clr⟩)
        | none => Except.ok ⟨none, none⟩)
    ∧ (∀ p, RegexProcessor.new rc args = Except.ok p →
        (p.regex_mode = true ↔ (specChosenPattern args).isSome = true))
    ∧ (((args.auto_interpolate_args || args.auto_interpolate_named_args)
          && args.commands_from_args_mode) = true →
        ∀ r, RegexProcessor.new rc args
          = RegexProcessor.new rc { args with regex := r }) := by
  refine ⟨regexProcessorNew_eq_spec rc args, ?_, ?_⟩
  · intro p hp
    rw [regexProcessorNew_eq_spec] at hp
    cases hs : specChosenPattern args with
    | none =>
      rw [hs] at hp
      injection hp with hp
      rw [← hp]
      simp [RegexProcessor.regex_mode]
    | some pat =>
      rw [hs] at hp
      dsimp only [Except.map] at hp
      cases hcn : CommandLineRegex.new rc pat with
      | error e =>
        rw [hcn] at hp
        exact Except.noConfusion hp
      | ok clr =>
        rw [hcn] at hp
        injection hp with hp
        rw [← hp]
        simp [RegexProcessor.regex_mode]
  · intro hauto r
    unfold RegexProcessor.new
    have heq : AutoCommandLineArgsRegex.new { args with regex := r }
        = AutoCommandLineArgsRegex.new args := rfl
    rw [heq]
    cases hA : AutoCommandLineArgsRegex.new args with
    | some auto => rfl
    | none =>
      exfalso
      unfold AutoCommandLineArgsRegex.new at hA
      have hsplit : (args.auto_interpolate_args = true
            ∨ args.auto_interpolate_named_args = true)
          ∧ args.commands_from_args_mode = true := by
        simpa using hauto
      obtain ⟨hab, hmode⟩ := hsplit
      by_cases hA1 : (args.auto_interpolate_args && args.commands_from_args_mode) = true
      · rw [if_pos hA1] at hA
        exact Option.noConfusion hA
      · rcases hab with ha | hb
        · exact hA1 (by rw [ha, hmode]; rfl)
        · rw [if_neg hA1, if_pos (by rw [hb, hmode]; rfl)] at hA
          exact Option.noConfusion hA

/-- C5 (witness): under `rcBad`, the configuration `argsAutoC5`
(auto-numbered active, explicit regex `IGNORED` configured) selects the
generated `(.*)` template, reports `regex_mode`, and ignores changes to the
explicit regex string. -/
theorem C5_witness :
    RegexProcessor.new rcBad argsAutoC5 = Except.ok pC5fix
    ∧ (pC5fix.regex_mode = true ↔ (specChosenPattern argsAutoC5).isSome = true)
    ∧ ((argsAutoC5.auto_interpolate_args || argsAutoC5.auto_interpolate_named_args)
          && argsAutoC5.commands_from_args_mode) = true
    ∧ RegexProcessor.new rcBad argsAutoC5
        = RegexProcessor.new rcBad { argsAutoC5 with regex := some "OTHER" } := by
  have h := C5_template_selection rcBad argsAutoC5
  exact ⟨rfl, h.2.1 pC5fix rfl, by decide, h.2.2 (by decide) (some "OTHER")⟩

/-! ## Claim C6 -/

theorem foldl_namedArgsStep :
    ∀ (rest : List String) (prev : Bool) (pre gen : String) (filtered : List String),
      prev = (pre == COMMANDS_FROM_ARGS_SEPARATOR) →
      (rest.foldl namedArgsStep (prev, gen, filtered)).2
        = (genAppend gen (consumedNamesAfter pre rest),
           filtered ++ keptTokensAfter pre rest) := by
  intro rest
  induction rest with
  | nil =>
    intro prev pre gen filtered _
    simp [genAppend, consumedNamesAfter, keptTokensAfter]
  | cons b rest' ih =>
    intro prev pre gen filtered hprev
    rw [List.foldl_cons]
    by_cases hpre : (pre == COMMANDS_FROM_ARGS_SEPARATOR) = true
    · by_cases hb : (b == COMMANDS_FROM_ARGS_SEPARATOR) = true
      · have hbEq : b = COMMANDS_FROM_ARGS_SEPARATOR := by simpa using hb
        have hstep : namedArgsStep (prev, gen, filtered) b
            = (true, gen, filtered ++ [b]) := by
          simp [namedArgsStep, hprev, hpre, hb, hbEq]
        rw [hstep, ih true b gen (filtered ++ [b]) hb.symm]
        simp [consumedNamesAfter, keptTokensAfter, hpre, hbEq, genAppend]
      · have hb' : (b == COMMANDS_FROM_ARGS_SEPARATOR) = false := by
          simpa using hb
        have hbNe : ¬b = COMMANDS_FROM_ARGS_SEPARATOR := by simpa using hb'
        have hstep : namedArgsStep (prev, gen, filtered) b
            = (false,
               gen ++ (if gen.isEmpty then "" else " ") ++ "(?P<" ++ b ++ ">.*)",
               filtered) := by
          simp [namedArgsStep, hprev, hpre, hb', hbNe]
        rw [hstep, ih false b _ filtered hb'.symm]
        simp [consumedNamesAfter, keptTokensAfter, hpre, hbNe, genAppend]
    · have hpre' : (pre == COMMANDS_FROM_ARGS_SEPARATOR) = false := by
        simpa using hpre
      have hpreNe : ¬pre = COMMANDS_FROM_ARGS_SEPARATOR := by simpa using hpre'
      by_cases hb : (b == COMMANDS_FROM_ARGS_SEPARATOR) = true
      · have hstep : namedArgsStep (prev, gen, filtered) b
            = (true, gen, filtered ++ [b]) := by
          simp [namedArgsStep, hprev, hpre', hb]
        rw [hstep, ih true b gen (filtered ++ [b]) hb.symm]
        simp [consumedNamesAfter, keptTokensAfter, hpreNe]
      · have hb' : (b == COMMANDS_FROM_ARGS_SEPARATOR) = false := by
          simpa using hb
        have hstep : namedArgsStep (prev, gen, filtered) b
            = (false, gen, filtered ++ [b]) := by
          simp [namedArgsStep, hprev, hpre', hb']
        rw [hstep, ih false b gen (filtered ++ [b]) hb'.symm]
        simp [consumedNamesAfter, keptTokensAfter, hpreNe]

theorem string_append_isEmpty_false {g : String} (h : String) (hg : g.isEmpty = false) :
    (g ++ h).isEmpty = false := by
  cases hgh : (g ++ h).isEmpty with
  | false => rfl
  | true =>
    exfalso
    have h1 : g ++ h = "" := (String.isEmpty_iff _).mp hgh
    have h2 : g.data ++ h.data = [] := by
      rw [← String.data_append, h1]
    have h3 : g = "" := by
      cases g with
      | mk data =>
        cases (List.append_eq_nil.mp h2).1
        rfl
    rw [h3] at hg
    exact Bool.noConfusion hg

theorem namedPiece_chunk_isEmpty_false (g n : String) :
    (g ++ "(?P<" ++ n ++ ">.*)").isEmpty = false := by
  cases hx : (g ++ "(?P<" ++ n ++ ">.*)").isEmpty with
  | false => rfl
  | true =>
    exfalso
    have h1 : g ++ "(?P<" ++ n ++ ">.*)" = "" := (String.isEmpty_iff _).mp hx
    have h2 : ((g ++ "(?P<") ++ n).data ++ (">.*)" : String).data = [] := by
      rw [← String.data_append]
      rw [show (g ++ "(?P<" ++ n) ++ ">.*)" = g ++ "(?P<" ++ n ++ ">.*)" from rfl, h1]
    exact List.cons_ne_nil _ _ (List.append_eq_nil.mp h2).2

theorem genAppend_nonempty (names : List String) :
    ∀ g : String, g.isEmpty = false →
      genAppend g names
        = g ++ joinAll (names.map (fun m => " " ++ namedPiece m)) := by
  induction names with
  | nil =>
    intro g _
    show g = g ++ ""
    exact ((String.ext (by simp [String.data_append])) : g ++ "" = g).symm
  | cons n rest ih =>
    intro g hg
    show genAppend (g ++ (if g.isEmpty then "" else " ") ++ "(?P<" ++ n ++ ">.*)") rest = _
    simp only [hg, Bool.false_eq_true, if_false]
    rw [ih _ (namedPiece_chunk_isEmpty_false (g ++ " ") n)]
    apply String.ext
    simp [joinAll, namedPiece, String.data_append]

theorem genAppend_empty_start (names : List String) :
    genAppend "" names = specNamedRegex names := by
  cases names with
  | nil => rfl
  | cons n rest =>
    show genAppend ("" ++ "" ++ "(?P<" ++ n ++ ">.*)") rest = _
    rw [genAppend_nonempty rest _ (namedPiece_chunk_isEmpty_false ("" ++ "") n)]
    apply String.ext
    simp [specNamedRegex, joinAll, namedPiece, String.data_append]

/-- C6: when the auto-named template is built, exactly the tokens that
immediately follow a `:::` separator (and are not themselves `:::`) are
consumed as capture names and removed from the command template, and the
generated regex is the space-joined concatenation `(?P<name1>.*)
(?P<name2>.*) ...` in the order the names appear. -/
theorem C6_auto_named_regex (args : CommandLineArgs) :
    (new_auto_interpolate_named_args args).generated_regex
        = specNamedRegex (specConsumedNames args.command_and_initial_arguments)
    ∧ (new_auto_interpolate_named_args args).modified_command_and_initial_arguments
        = specKeptTokens args.command_and_initial_arguments := by
  have hmain : ∀ ca : List String,
      (ca.foldl namedArgsStep (false, "", [])).2
        = (genAppend "" (specConsumedNames ca), specKeptTokens ca) := by
    intro ca
    cases ca with
    | nil => rfl
    | cons a rest =>
      rw [List.foldl_cons]
      have hfirst : namedArgsStep (false, "", []) a
          = ((a == COMMANDS_FROM_ARGS_SEPARATOR), "", [a]) := by
        by_cases ha : (a == COMMANDS_FROM_ARGS_SEPARATOR) = true
        · simp [namedArgsStep, ha]
        · have ha' : (a == COMMANDS_FROM_ARGS_SEPARATOR) = false := by simpa using ha
          simp [namedArgsStep, ha']
      rw [hfirst,
        foldl_namedArgsStep rest (a == COMMANDS_FROM_ARGS_SEPARATOR) a "" [a] rfl]
      rfl
  constructor
  · show (args.command_and_initial_arguments.foldl namedArgsStep (false, "", [])).2.1 = _
    rw [hmain, genAppend_empty_start]
  · show (args.command_and_initial_arguments.foldl namedArgsStep (false, "", [])).2.2 = _
    rw [hmain]

/-! ## Claim C7: key occurrences cannot overlap a foreign chunk

The development below proves that a `str::replace` scan maps
`l ++ (f ++ r)` to `(scan l) ++ (f ++ scan r)` whenever the pattern is a
substitution key and `f` is a foreign chunk, because no key occurrence can
start inside the `f` region (`foreign_H1`) and no key occurrence starting
before the region can reach into it (`foreign_H2`). -/

theorem replaceAllGo_skip_drop (k v : List Char) :
    ∀ (n : Nat) (s : List Char),
      replaceAllGo k v n s = replaceAllGo k v 0 (s.drop n) := by
  intro n
  induction n with
  | zero => intro s; rw [List.drop_zero]
  | succ n ih =>
    intro s
    cases s with
    | nil => rfl
    | cons c rest =>
      rw [List.drop_succ_cons]
      exact ih rest

theorem cons_isPrefixOf_cons_false {a b : Char} (k' s' : List Char)
    (hne : a ≠ b) : (a :: k').isPrefixOf (b :: s') = false := by
  simp [List.isPrefixOf, beq_eq_false_iff_ne.mpr hne]

theorem isKeyShape_destruct {k : List Char} (h : isKeyShape k = true) :
    ∃ w, k = lbrace :: (w ++ [rbrace]) ∧ keyInteriorOk w = true := by
  cases k with
  | nil => exact absurd h (by simp [isKeyShape])
  | cons c rest =>
    unfold isKeyShape at h
    simp only [Bool.and_eq_true, beq_iff_eq] at h
    obtain ⟨⟨hc, hlast⟩, hok⟩ := h
    have hne : rest ≠ [] := by
      intro h0
      rw [h0] at hlast
      exact Option.noConfusion hlast
    have hget : rest.getLast hne = rbrace := by
      have h1 := List.getLast?_eq_getLast rest hne
      rw [h1] at hlast
      exact Option.some.inj hlast
    have hsplit : rest.dropLast ++ [rbrace] = rest := by
      have h2 := List.dropLast_append_getLast hne
      rw [hget] at h2
      exact h2
    exact ⟨rest.dropLast, by rw [hc, hsplit], hok⟩

theorem isBraceChunk_destruct {keys : List (List Char)} {f : List Char}
    (h : isBraceChunk keys f = true) :
    ∃ u, f = lbrace :: (u ++ [rbrace]) ∧ braceFree u = true ∧ f ∉ keys := by
  cases f with
  | nil => exact absurd h (by simp [isBraceChunk])
  | cons c rest =>
    unfold isBraceChunk at h
    simp only [Bool.and_eq_true, beq_iff_eq, Bool.not_eq_true'] at h
    obtain ⟨⟨⟨hc, hlast⟩, hbf⟩, hcont⟩ := h
    have hne : rest ≠ [] := by
      intro h0
      rw [h0] at hlast
      exact Option.noConfusion hlast
    have hget : rest.getLast hne = rbrace := by
      have h1 := List.getLast?_eq_getLast rest hne
      rw [h1] at hlast
      exact Option.some.inj hlast
    have hsplit : rest.dropLast ++ [rbrace] = rest := by
      have h2 := List.dropLast_append_getLast hne
      rw [hget] at h2
      exact h2
    refine ⟨rest.dropLast, by rw [hc, hsplit], hbf, ?_⟩
    intro hmem
    exact absurd hmem (by simpa using hcont)

theorem braceFree_mem {c : Char} {u : List Char} (hu : braceFree u = true)
    (hc : c ∈ u) : c ≠ lbrace ∧ c ≠ rbrace := by
  have := List.all_eq_true.mp hu c hc
  simp only [Bool.and_eq_true, bne_iff_ne, ne_eq] at this
  exact this

theorem braceFree_tail {c : Char} {u : List Char}
    (h : braceFree (c :: u) = true) : braceFree u = true := by
  rw [braceFree, List.all_eq_true]
  intro a ha
  exact List.all_eq_true.mp h a (List.mem_cons_of_mem c ha)

theorem braceFree_body_mem {c : Char} {u : List Char} (hu : braceFree u = true)
    (hc : c ∈ u ++ [rbrace]) : c ≠ lbrace := by
  rcases List.mem_append.mp hc with h | h
  · exact (braceFree_mem hu h).1
  · simp only [List.mem_singleton] at h
    subst h
    decide

theorem keyInterior_body_mem {c : Char} {w : List Char}
    (hw : keyInteriorOk w = true) (hc : c ∈ w ++ [rbrace]) :
    c ≠ lbrace ∧ c ≠ '$' := by
  rcases List.mem_append.mp hc with h | h
  · have := List.all_eq_true.mp hw c h
    simp only [Bool.and_eq_true, bne_iff_ne, ne_eq] at this
    exact ⟨this.1.1, this.2⟩
  · simp only [List.mem_singleton] at h
    subst h
    exact ⟨by decide, by decide⟩

theorem braceFree_of_keyInteriorOk {w : List Char}
    (h : keyInteriorOk w = true) : braceFree w = true := by
  rw [braceFree, List.all_eq_true]
  intro c hc
  have := List.all_eq_true.mp h c hc
  simp only [Bool.and_eq_true] at this
  simp only [Bool.and_eq_true]
  exact ⟨this.1.1, this.1.2⟩

/-- A key tail `w\x7d` never matches starting at the body of a different
brace form `u\x7d...`: the brace-free interiors force the closing braces to
align, which would make the keys equal. -/
theorem keyTail_not_prefixOf :
    ∀ (w u : List Char), braceFree w = true → braceFree u = true → w ≠ u →
    ∀ x, (w ++ [rbrace]).isPrefixOf (u ++ rbrace :: x) = false := by
  intro w
  induction w with
  | nil =>
    intro u _ hu hne x
    cases u with
    | nil => exact absurd rfl hne
    | cons c u' =>
      have hc : c ≠ rbrace := (braceFree_mem hu (List.mem_cons_self c u')).2
      exact cons_isPrefixOf_cons_false [] (u' ++ rbrace :: x) (Ne.symm hc)
  | cons a w' ih =>
    intro u hw hne hneq x
    have ha := braceFree_mem hw (List.mem_cons_self a w')
    cases u with
    | nil =>
      exact cons_isPrefixOf_cons_false (w' ++ [rbrace]) x ha.2
    | cons c u' =>
      by_cases hac : a = c
      · subst hac
        show (a :: (w' ++ [rbrace])).isPrefixOf (a :: (u' ++ rbrace :: x)) = false
        simp only [List.isPrefixOf, beq_self_eq_true, Bool.true_and]
        exact ih u' (braceFree_tail hw) (braceFree_tail hne)
          (fun h0 => hneq (by rw [h0])) x
      · exact cons_isPrefixOf_cons_false (w' ++ [rbrace]) (u' ++ rbrace :: x) hac

/-! ## Claim C8 -/

/-- C8: a jobs value below 1 is rejected by `parse_semaphore_permits`, a
timeout-seconds value not strictly greater than 0 is rejected by
`parse_timeout_seconds`, and an explicit regex string that fails to compile
makes `RegexProcessor::new` return an error before any command service is
constructed, an error which `main` turns into exit code 1. -/
theorem C8_config_errors_rejected :
    (∀ v : Nat, v < 1 →
      parse_semaphore_permits (some v) = Except.error "value not in range")
    ∧ (∀ q : Rat, q ≤ 0 →
      parse_timeout_seconds (some q) = Except.error "value not greater than 0")
    ∧ (∀ (rc : RegexCompiler) (args : CommandLineArgs) (r : String),
        AutoCommandLineArgsRegex.new args = none →
        args.regex = some r →
        rc.capture_names r = none →
        RegexProcessor.new rc args
            = Except.error "CommandLineRegex::new: error creating regex"
          ∧ mainExitCode (RegexProcessor.new rc args) = 1) := by
  refine ⟨?_, ?_, ?_⟩
  · intro v hv
    show (if 1 ≤ v ∧ v ≤ SEMAPHORE_MAX_PERMITS then Except.ok v
          else Except.error "value not in range") = _
    rw [if_neg]
    intro hcon
    omega
  · intro q hq
    show (if q > 0 then Except.ok q
          else Except.error "value not greater than 0") = _
    rw [if_neg (not_lt.mpr hq)]
  · intro rc args r hauto hr hc
    have hnew : RegexProcessor.new rc args
        = Except.error "CommandLineRegex::new: error creating regex" := by
      unfold RegexProcessor.new CommandLineRegex.new
      rw [hauto, hr]
      dsimp only
      rw [hc]
    refine ⟨hnew, ?_⟩
    rw [hnew]
    rfl

/-- C8 (witness): jobs value 0, timeout value −1, and the configuration whose
explicit regex `BADPAT` fails to compile under `rcBad`. -/
theorem C8_witness :
    parse_semaphore_permits (some 0) = Except.error "value not in range"
    ∧ parse_timeout_seconds (some (-1 : Rat))
        = Except.error "value not greater than 0"
    ∧ RegexProcessor.new rcBad argsBadRegex
        = Except.error "CommandLineRegex::new: error creating regex"
    ∧ mainExitCode (RegexProcessor.new rcBad argsBadRegex) = 1 := by
  have h3 := C8_config_errors_rejected.2.2 rcBad argsBadRegex "BADPAT"
    (by decide) rfl (by decide)
  exact ⟨C8_config_errors_rejected.1 0 (by decide),
    C8_config_errors_rejected.2.1 (-1 : Rat) (by norm_num), h3.1, h3.2⟩

/-! ## Claim C9 -/

/-- C9: in every reachable scheduler state the semaphore accounting is exact
(`available` permits plus in-flight tasks equal `jobs`), so the number of
live child processes never exceeds `jobs`. -/
theorem C9_semaphore_bound (jobs : Nat) (s : SchedState)
    (h : SchedReachable jobs s) :
    s.available + s.acquired + s.childRunning + s.childDone = jobs
    ∧ s.childRunning ≤ jobs := by
  induction h with
  | init => exact ⟨by simp [SchedState.init], by simp [SchedState.init]⟩
  | step hreach hstep ih =>
    obtain ⟨ih1, _⟩ := ih
    cases hstep with
    | acquirePermit hs =>
      refine ⟨?_, ?_⟩ <;> dsimp only <;> omega
    | spawnChild hs =>
      refine ⟨?_, ?_⟩ <;> dsimp only <;> omega
    | childExit hs =>
      refine ⟨?_, ?_⟩ <;> dsimp only <;> omega
    | finishTask hs =>
      refine ⟨?_, ?_⟩ <;> dsimp only <;> omega

/-- C9 (witness): with `jobs = 2`, after acquiring a permit and spawning one
child the state `⟨1, 0, 1, 0⟩` is reachable and its live-children count is
bounded by 2. -/
theorem C9_witness :
    SchedReachable 2 ⟨1, 0, 1, 0⟩
    ∧ (SchedState.childRunning ⟨1, 0, 1, 0⟩) ≤ 2 := by
  have h1 : SchedStep (SchedState.init 2) ⟨1, 1, 0, 0⟩ :=
    SchedStep.acquirePermit (SchedState.init 2) (by decide)
  have h2 : SchedStep ⟨1, 1, 0, 0⟩ ⟨1, 0, 1, 0⟩ :=
    SchedStep.spawnChild ⟨1, 1, 0, 0⟩ (by decide)
  have hr : SchedReachable 2 ⟨1, 0, 1, 0⟩ :=
    SchedReachable.step (SchedReachable.step SchedReachable.init h1) h2
  exact ⟨hr, (C9_semaphore_bound 2 ⟨1, 0, 1, 0⟩ hr).2⟩

/-- No substitution key can match starting anywhere inside a non-key brace
form `\x7bu\x7d` (regardless of what follows the form). -/
theorem braceBody_no_key_match (keys : List (List Char)) (k u : List Char)
    (hk : isKeyShape k = true) (hmem : k ∈ keys)
    (hu : braceFree u = true) (hnot : lbrace :: (u ++ [rbrace]) ∉ keys) :
    ∀ f₂, f₂ ≠ [] → f₂ <:+ lbrace :: (u ++ [rbrace]) →
    ∀ x, k.isPrefixOf (f₂ ++ x) = false := by
  obtain ⟨w, hkw, hwok⟩ := isKeyShape_destruct hk
  intro f₂ hne hsuf x
  rcases List.suffix_cons_iff.mp hsuf with heq | hsuf'
  · subst heq
    have hwu : w ≠ u := by
      intro h0
      apply hnot
      rw [← h0, ← hkw]
      exact hmem
    have hmain := keyTail_not_prefixOf w u (braceFree_of_keyInteriorOk hwok) hu hwu x
    rw [hkw]
    show (lbrace :: (w ++ [rbrace])).isPrefixOf
        (lbrace :: ((u ++ [rbrace]) ++ x)) = false
    simp only [List.isPrefixOf, beq_self_eq_true, Bool.true_and]
    rw [show (u ++ [rbrace]) ++ x = u ++ rbrace :: x by
      rw [List.append_assoc, List.singleton_append]]
    exact hmain
  · cases f₂ with
    | nil => exact absurd rfl hne
    | cons c t =>
      have hcmem : c ∈ u ++ [rbrace] := hsuf'.subset (List.mem_cons_self c t)
      have hcl : c ≠ lbrace := braceFree_body_mem hu hcmem
      rw [hkw]
      exact cons_isPrefixOf_cons_false (w ++ [rbrace]) (t ++ x) (Ne.symm hcl)

/-- `foreign_H1`: no substitution key can match starting anywhere inside a
foreign chunk, regardless of what follows. -/
theorem foreign_H1 (keys : List (List Char)) (k f : List Char)
    (hk : isKeyShape k = true) (hmem : k ∈ keys)
    (hf : isForeignChunk keys f = true) :
    ∀ f₂, f₂ ≠ [] → f₂ <:+ f → ∀ x, k.isPrefixOf (f₂ ++ x) = false := by
  obtain ⟨w, hkw, hwok⟩ := isKeyShape_destruct hk
  cases f with
  | nil => exact absurd hf (by simp [isForeignChunk])
  | cons c0 rest =>
    by_cases h0 : c0 = '$'
    · have hrest : braceFree rest = true ∨ isBraceChunk keys rest = true := by
        have hf' : (if (c0 == '$') = true then
              braceFree rest || isBraceChunk keys rest
            else isBraceChunk keys (c0 :: rest)) = true := hf
        rw [if_pos (by rw [h0]; exact rfl)] at hf'
        simpa using hf'
      intro f₂ hne hsuf x
      rcases List.suffix_cons_iff.mp hsuf with heq | hsuf'
      · subst heq
        rw [hkw, h0]
        exact cons_isPrefixOf_cons_false (w ++ [rbrace]) (rest ++ x) (by decide)
      · rcases hrest with hbf | hbc
        · cases f₂ with
          | nil => exact absurd rfl hne
          | cons c t =>
            have hcmem : c ∈ rest := hsuf'.subset (List.mem_cons_self c t)
            have hcl : c ≠ lbrace := (braceFree_mem hbf hcmem).1
            rw [hkw]
            exact cons_isPrefixOf_cons_false (w ++ [rbrace]) (t ++ x) (Ne.symm hcl)
        · obtain ⟨u, hre, hu, hnot⟩ := isBraceChunk_destruct hbc
          rw [hre] at hsuf'
          rw [hre] at hnot
          exact braceBody_no_key_match keys k u hk hmem hu hnot f₂ hne hsuf' x
    · have hbc : isBraceChunk keys (c0 :: rest) = true := by
        have hf' : (if (c0 == '$') = true then
              braceFree rest || isBraceChunk keys rest
            else isBraceChunk keys (c0 :: rest)) = true := hf
        rwa [if_neg (by simpa using h0)] at hf'
      obtain ⟨u, hfe, hu, hnot⟩ := isBraceChunk_destruct hbc
      intro f₂ hne hsuf x
      rw [hfe] at hsuf
      rw [hfe] at hnot
      exact braceBody_no_key_match keys k u hk hmem hu hnot f₂ hne hsuf x

/-- `foreign_H2`: no proper tail of a substitution key can match at the start
of a foreign chunk, so a key occurrence beginning before the chunk cannot
reach into it. -/
theorem foreign_H2 (keys : List (List Char)) (k f : List Char)
    (hk : isKeyShape k = true) (hf : isForeignChunk keys f = true) :
    ∀ k₂, k₂ <:+ k → k₂.length < k.length → k₂ ≠ [] →
    ∀ x, k₂.isPrefixOf (f ++ x) = false := by
  obtain ⟨w, hkw, hwok⟩ := isKeyShape_destruct hk
  have hfhead : ∃ fh frest, f = fh :: frest ∧ (fh = '$' ∨ fh = lbrace) := by
    cases f with
    | nil => exact absurd hf (by simp [isForeignChunk])
    | cons c0 rest =>
      by_cases h0 : c0 = '$'
      · exact ⟨c0, rest, rfl, Or.inl h0⟩
      · refine ⟨c0, rest, rfl, Or.inr ?_⟩
        have hbc : isBraceChunk keys (c0 :: rest) = true := by
          have hf' : (if (c0 == '$') = true then
                braceFree rest || isBraceChunk keys rest
              else isBraceChunk keys (c0 :: rest)) = true := hf
          rwa [if_neg (by simpa using h0)] at hf'
        obtain ⟨u, hfe, _, _⟩ := isBraceChunk_destruct hbc
        exact (List.cons.injEq c0 rest lbrace (u ++ [rbrace])).mp hfe |>.1
  obtain ⟨fh, frest, hfe, hfh⟩ := hfhead
  intro k₂ hsuf hlen hne x
  rw [hkw] at hsuf hlen
  rcases List.suffix_cons_iff.mp hsuf with heq | hsuf'
  · rw [heq] at hlen
    exact absurd hlen (lt_irrefl _)
  · cases k₂ with
    | nil => exact absurd rfl hne
    | cons c t =>
      have hcmem : c ∈ w ++ [rbrace] := hsuf'.subset (List.mem_cons_self c t)
      have hc := keyInterior_body_mem hwok hcmem
      rw [hfe]
      rcases hfh with h | h <;> rw [h] <;>
        exact cons_isPrefixOf_cons_false t (frest ++ x)
          (by first
            | exact hc.2
            | exact hc.1)

/-- The replace scan copies a region verbatim when no pattern occurrence can
start inside it. -/
theorem replaceAllGo_through_foreign (k v f : List Char)
    (H1 : ∀ f₂, f₂ ≠ [] → f₂ <:+ f → ∀ x, k.isPrefixOf (f₂ ++ x) = false) :
    ∀ f₂, f₂ <:+ f → ∀ r,
      replaceAllGo k v 0 (f₂ ++ r) = f₂ ++ replaceAllGo k v 0 r := by
  intro f₂
  induction f₂ with
  | nil => intro _ r; rfl
  | cons c t ih =>
    intro hsuf r
    have hno : k.isPrefixOf (c :: (t ++ r)) = false :=
      H1 (c :: t) (List.cons_ne_nil c t) hsuf r
    show replaceAllGo k v 0 (c :: (t ++ r)) = c :: (t ++ replaceAllGo k v 0 r)
    rw [replaceAllGo, if_neg (by rw [hno]; exact Bool.noConfusion),
      ih ((List.suffix_cons c t).trans hsuf) r]

/-- The replace scan distributes over a foreign region: occurrences before
the region stay before it, the region itself is copied verbatim, and the
scan resumes after it. -/
theorem replaceAllGo_foreign_split (k v f : List Char)
    (H1 : ∀ f₂, f₂ ≠ [] → f₂ <:+ f → ∀ x, k.isPrefixOf (f₂ ++ x) = false)
    (H2 : ∀ k₂, k₂ <:+ k → k₂.length < k.length → k₂ ≠ [] →
      ∀ x, k₂.isPrefixOf (f ++ x) = false) :
    ∀ l r, replaceAllGo k v 0 (l ++ (f ++ r))
      = replaceAllGo k v 0 l ++ (f ++ replaceAllGo k v 0 r) := by
  have main : ∀ n l, l.length ≤ n → ∀ r,
      replaceAllGo k v 0 (l ++ (f ++ r))
        = replaceAllGo k v 0 l ++ (f ++ replaceAllGo k v 0 r) := by
    intro n
    induction n with
    | zero =>
      intro l hl r
      rw [List.eq_nil_of_length_eq_zero (Nat.le_zero.mp hl)]
      show replaceAllGo k v 0 (f ++ r) = [] ++ (f ++ replaceAllGo k v 0 r)
      rw [List.nil_append]
      exact replaceAllGo_through_foreign k v f H1 f (List.suffix_refl f) r
    | succ n ih =>
      intro l hl r
      cases l with
      | nil =>
        show replaceAllGo k v 0 (f ++ r) = [] ++ (f ++ replaceAllGo k v 0 r)
        rw [List.nil_append]
        exact replaceAllGo_through_foreign k v f H1 f (List.suffix_refl f) r
      | cons c l₂ =>
        have hl₂ : l₂.length ≤ n := by
          simp only [List.length_cons] at hl
          omega
        by_cases hm : k.isPrefixOf (c :: (l₂ ++ (f ++ r))) = true
        · have hpre : k <+: (c :: l₂) ++ (f ++ r) :=
            List.isPrefixOf_iff_prefix.mp hm
          have hlen : k.length ≤ (c :: l₂).length := by
            by_contra hgt
            have hlt : (c :: l₂).length < k.length := Nat.lt_of_not_le hgt
            have hk2pre : k.drop (c :: l₂).length <+: f ++ r := by
              have h := hpre.drop (c :: l₂).length
              rwa [List.drop_left] at h
            have hk2len : (k.drop (c :: l₂).length).length < k.length := by
              rw [List.length_drop]
              simp only [List.length_cons] at hlt ⊢
              omega
            have hk2ne : k.drop (c :: l₂).length ≠ [] := by
              intro h0
              have h1 := congrArg List.length h0
              rw [List.length_drop] at h1
              simp only [List.length_nil] at h1
              omega
            have hcon := H2 (k.drop (c :: l₂).length) (List.drop_suffix _ _)
              hk2len hk2ne r
            rw [List.isPrefixOf_iff_prefix.mpr hk2pre] at hcon
            exact Bool.noConfusion hcon
          have hm2 : k.isPrefixOf (c :: l₂) = true :=
            List.isPrefixOf_iff_prefix.mpr
              (List.prefix_of_prefix_length_le hpre (List.prefix_append _ _) hlen)
          have hdrop : k.length - 1 ≤ l₂.length := by
            simp only [List.length_cons] at hlen
            omega
          show replaceAllGo k v 0 (c :: (l₂ ++ (f ++ r)))
            = replaceAllGo k v 0 (c :: l₂) ++ (f ++ replaceAllGo k v 0 r)
          rw [replaceAllGo, if_pos hm, replaceAllGo_skip_drop,
            List.drop_append_of_le_length hdrop,
            ih (l₂.drop (k.length - 1)) (by rw [List.length_drop]; omega) r]
          rw [replaceAllGo, if_pos hm2, replaceAllGo_skip_drop k v (k.length - 1) l₂]
          rw [List.append_assoc]
        · have hm2 : k.isPrefixOf (c :: l₂) = false := by
            cases hm2 : k.isPrefixOf (c :: l₂) with
            | false => rfl
            | true =>
              exfalso
              apply hm
              have h := List.isPrefixOf_iff_prefix.mp hm2
              exact List.isPrefixOf_iff_prefix.mpr
                (h.trans (List.prefix_append (c :: l₂) (f ++ r)))
          show replaceAllGo k v 0 (c :: (l₂ ++ (f ++ r)))
            = replaceAllGo k v 0 (c :: l₂) ++ (f ++ replaceAllGo k v 0 r)
          rw [replaceAllGo, if_neg hm, replaceAllGo,
            if_neg (by rw [hm2]; exact Bool.noConfusion), ih l₂ hl₂ r]
          rfl
  intro l r
  exact main l.length l le_rfl r

/-- `str::replace` with a substitution-key pattern distributes over a
foreign chunk: the chunk is copied verbatim and the replacement acts on the
two sides independently. -/
theorem rustReplace_foreign_split (keys : List (List Char)) (k v l f r : String)
    (hk : isKeyShape k.data = true) (hmem : k.data ∈ keys)
    (hf : isForeignChunk keys f.data = true) :
    rustReplace (l ++ (f ++ r)) k v
      = rustReplace l k v ++ (f ++ rustReplace r k v) := by
  have hkne : k.data.isEmpty = false := by
    obtain ⟨w, hkw, _⟩ := isKeyShape_destruct hk
    rw [hkw]
    rfl
  apply String.ext
  simp only [rustReplace, String.data_append]
  unfold replaceAll
  rw [hkne]
  simp only [Bool.false_eq_true, if_false]
  exact replaceAllGo_foreign_split k.data v.data f.data
    (foreign_H1 keys k.data f.data hk hmem hf)
    (foreign_H2 keys k.data f.data hk hf) l.data r.data

/-- A sequence of `str::replace` passes, one per table entry, distributes
over a foreign chunk when every table key is a well-shaped substitution
key. -/
theorem seqReplace_foreign_split (keys : List (List Char)) (f : String)
    (hf : isForeignChunk keys f.data = true) :
    ∀ table : List (String × String),
      (∀ p ∈ table, isKeyShape p.1.data = true ∧ p.1.data ∈ keys) →
      ∀ l r : String,
        seqReplace table (l ++ (f ++ r))
          = seqReplace table l ++ (f ++ seqReplace table r) := by
  intro table
  induction table with
  | nil => intro _ l r; rfl
  | cons p T ih =>
    intro hT l r
    show seqReplace T (rustReplace (l ++ (f ++ r)) p.1 p.2)
      = seqReplace T (rustReplace l p.1 p.2)
        ++ (f ++ seqReplace T (rustReplace r p.1 p.2))
    rw [rustReplace_foreign_split keys p.1 p.2 l f r
      (hT p (List.mem_cons_self p T)).1 (hT p (List.mem_cons_self p T)).2 hf]
    exact ih (fun q hq => hT q (List.mem_cons_of_mem p hq))
      (rustReplace l p.1 p.2) (rustReplace r p.1 p.2)

theorem numberedSeqTable_keys (names caps : List (Option String)) :
    ∀ q ∈ caps.enum.filterMap (fun p =>
        match p.2, (numberedGroupMatchKeys names)[p.1]? with
        | some v, some k => some (k, v)
        | _, _ => none),
      q.1 ∈ expandKeyStrings names := by
  intro q hq
  obtain ⟨p, _, hpq⟩ := List.mem_filterMap.mp hq
  cases hv : p.2 with
  | none =>
    rw [hv] at hpq
    cases hkk : (numberedGroupMatchKeys names)[p.1]? <;> rw [hkk] at hpq <;>
      exact Option.noConfusion hpq
  | some v =>
    rw [hv] at hpq
    cases hkk : (numberedGroupMatchKeys names)[p.1]? with
    | none =>
      rw [hkk] at hpq
      exact Option.noConfusion hpq
    | some key =>
      rw [hkk] at hpq
      injection hpq with hpq
      rw [← hpq]
      exact List.mem_append_left _ (List.getElem?_mem hkk)

theorem namedSeqTable_keys (names caps : List (Option String)) :
    ∀ q ∈ (namedGroupToMatchKey names).filterMap (fun p =>
        (capturesName names caps p.1).map (fun v => (p.2, v))),
      q.1 ∈ expandKeyStrings names := by
  intro q hq
  obtain ⟨p, hp, hpq⟩ := List.mem_filterMap.mp hq
  cases hv : capturesName names caps p.1 with
  | none =>
    rw [hv] at hpq
    exact Option.noConfusion hpq
  | some v =>
    rw [hv] at hpq
    injection hpq with hpq
    rw [← hpq]
    exact List.mem_append_right _ (List.mem_map_of_mem Prod.snd hp)

/-- C7: substitution preserves verbatim every dollar-sign sequence and every
curly-brace form that does not correspond to a known key of the active
template.  For any argv element `l ++ (f ++ r)` whose middle part `f` is
such a foreign chunk (`$BAR`, `$\x7bFOO\x7d` or `\x7bunknown\x7d`), `expand`
on a matching datum keeps `f` unchanged in place and rewrites `l` and `r`
exactly as it would rewrite them as standalone elements — so keys elsewhere
in the element are still substituted.  The key-shape hypothesis records that
every key of the template is brace-delimited with a brace- and dollar-free
interior, which holds of the `\x7bi\x7d` and `\x7bname\x7d` keys
`CommandLineRegex::new` builds from `regex`-crate capture names. -/
theorem C7_foreign_chunk_preserved (clr : CommandLineRegex)
    (l f r input_data : String) (caps : List (Option String))
    (hcap : clr.capturesFn input_data = some caps)
    (hkeys : ∀ key ∈ expandKeyStrings clr.captureNames, isKeyShape key.data = true)
    (hf : isForeignChunk ((expandKeyStrings clr.captureNames).map String.data)
        f.data = true) :
    ∃ el er,
      clr.expand (l ++ (f ++ r)) input_data = some (el ++ (f ++ er))
      ∧ clr.expand l input_data = some el
      ∧ clr.expand r input_data = some er := by
  have hexp : ∀ s : String, clr.expand s input_data
      = some (seqReplace
          ((namedGroupToMatchKey clr.captureNames).filterMap (fun p =>
            (capturesName clr.captureNames caps p.1).map (fun v => (p.2, v))))
          (seqReplace
            (caps.enum.filterMap (fun p =>
              match p.2, (numberedGroupMatchKeys clr.captureNames)[p.1]? with
              | some v, some k => some (k, v)
              | _, _ => none))
            s)) := by
    intro s
    unfold CommandLineRegex.expand
    rw [hcap]
    show some (applyNamedGroups clr.captureNames caps
        (applyNumberedGroups (numberedGroupMatchKeys clr.captureNames) caps s)) = _
    rw [applyNumberedGroups_eq_seq, applyNamedGroups_eq_seq]
  have hT1 : ∀ p ∈ caps.enum.filterMap (fun p =>
      match p.2, (numberedGroupMatchKeys clr.captureNames)[p.1]? with
      | some v, some k => some (k, v)
      | _, _ => none),
      isKeyShape p.1.data = true
        ∧ p.1.data ∈ (expandKeyStrings clr.captureNames).map String.data :=
    fun p hp =>
      ⟨hkeys p.1 (numberedSeqTable_keys clr.captureNames caps p hp),
        List.mem_map_of_mem String.data
          (numberedSeqTable_keys clr.captureNames caps p hp)⟩
  have hT2 : ∀ p ∈ (namedGroupToMatchKey clr.captureNames).filterMap (fun p =>
      (capturesName clr.captureNames caps p.1).map (fun v => (p.2, v))),
      isKeyShape p.1.data = true
        ∧ p.1.data ∈ (expandKeyStrings clr.captureNames).map String.data :=
    fun p hp =>
      ⟨hkeys p.1 (namedSeqTable_keys clr.captureNames caps p hp),
        List.mem_map_of_mem String.data
          (namedSeqTable_keys clr.captureNames caps p hp)⟩
  refine ⟨_, _, ?_, hexp l, hexp r⟩
  rw [hexp (l ++ (f ++ r))]
  congr 1
  rw [seqReplace_foreign_split _ f hf _ hT1 l r,
    seqReplace_foreign_split _ f hf _ hT2]

/-- C7 (witness): the theorem applied to the template
`(?P<arg1>.*),(?P<arg2>.*)` on the datum `hello,world`, with the mixed
element of the repository's own dollar-curly-brace integration test split
around its `$\x7bFOO\x7d` chunk: the chunk survives verbatim while the keys
around it are substituted. -/
theorem C7_witness :
    ∃ el er,
      clrNamed.expand
          ("\x7barg2\x7d" ++ ("$\x7bFOO\x7d" ++ "\x7barg1\x7d$BAR$\x7bBAR\x7d\x7barg2\x7d"))
          "hello,world"
        = some (el ++ ("$\x7bFOO\x7d" ++ er))
      ∧ clrNamed.expand "\x7barg2\x7d" "hello,world" = some el
      ∧ clrNamed.expand "\x7barg1\x7d$BAR$\x7bBAR\x7d\x7barg2\x7d" "hello,world"
        = some er :=
  C7_foreign_chunk_preserved clrNamed "\x7barg2\x7d" "$\x7bFOO\x7d"
    "\x7barg1\x7d$BAR$\x7bBAR\x7d\x7barg2\x7d" "hello,world"
    [some "hello,world", some "hello", some "world"]
    (by decide) (by decide) (by decide)

end RustParallel
